import Mathlib

/-!
Verification development for the `repo-metrics` repository.

This file shallowly embeds the core of the repository — the classifier,
the line/test-case counters, the blob-metrics cache and the per-commit
aggregator from `src/metrics.ts`, the blob reader from `src/git.ts`, the
rolling commit-message-length average and the empty-history check from
`src/repo-metrics.ts`, and `sanitizeRepoForDisplay` from `src/cli.ts` —
and proves the specified properties about the embedding.

Strings are processed as `List Char`; machine integers of the source are
embedded as `Nat` (all the counters are nonnegative and never overflow in
JavaScript's integer-safe range for realistic inputs).  The asynchronous
git operations (`listTree`, `catBlob`) are embedded by passing the tree
listing as an explicit list of entries and the raw `git cat-file` output
as an explicit function from blob identity to `Option String` (`none`
models a failed child process).
-/

namespace RepoMetrics

/-! ## Basic character classes and string helpers -/

/-- JavaScript `\s` / `String.prototype.trim` whitespace set:
`WhiteSpace ∪ LineTerminator` of ECMA-262. -/
def isJsSpace (c : Char) : Bool :=
  c = ' ' || c = '\t' || c = '\n' || c = Char.ofNat 11 || c = Char.ofNat 12 ||
  c = '\r' || c = Char.ofNat 0xa0 || c = Char.ofNat 0x1680 ||
  (Char.ofNat 0x2000 ≤ c && c ≤ Char.ofNat 0x200a) ||
  c = Char.ofNat 0x2028 || c = Char.ofNat 0x2029 || c = Char.ofNat 0x202f ||
  c = Char.ofNat 0x205f || c = Char.ofNat 0x3000 || c = Char.ofNat 0xfeff

/-- ECMA-262 line terminators (what a multiline `^` anchors after and a
multiline `$` anchors before). -/
def isLineTerm (c : Char) : Bool :=
  c = '\n' || c = '\r' || c = Char.ofNat 0x2028 || c = Char.ofNat 0x2029

/-- JavaScript `\w`: `[A-Za-z0-9_]`. -/
def isWordChar (c : Char) : Bool :=
  ('A' ≤ c && c ≤ 'Z') || ('a' ≤ c && c ≤ 'z') || ('0' ≤ c && c ≤ '9') || c = '_'

/-- `[A-Z]`. -/
def isUpperAZ (c : Char) : Bool := 'A' ≤ c && c ≤ 'Z'

/-- `[a-zA-Z]`. -/
def isAsciiAlpha (c : Char) : Bool := ('A' ≤ c && c ≤ 'Z') || ('a' ≤ c && c ≤ 'z')

/-- JavaScript `String.prototype.trim` on a character list. -/
def jsTrim (cs : List Char) : List Char :=
  ((cs.dropWhile isJsSpace).reverse.dropWhile isJsSpace).reverse

/-- Split on `/\r?\n/` exactly as `text.split(/\r?\n/)` does: a line break is
`"\n"` optionally preceded by `"\r"`; a lone `"\r"` stays inside the line. -/
def splitRNAux (acc : List Char) : List Char → List (List Char)
  | [] => [acc.reverse]
  | c :: t =>
    if c = '\n' then
      (match acc with
       | '\r' :: a => a.reverse
       | a => a.reverse) :: splitRNAux [] t
    else splitRNAux (c :: acc) t

/-- All lines of a text under the `/\r?\n/` splitting convention. -/
def splitRN (cs : List Char) : List (List Char) := splitRNAux [] cs

/-- Split a character list on `'/'`, keeping empty segments — the behaviour
of JavaScript `String.prototype.split('/')`. -/
def splitSlash : List Char → List (List Char)
  | [] => [[]]
  | c :: t =>
    match splitSlash t with
    | h :: rs => if c = '/' then [] :: h :: rs else (c :: h) :: rs
    | [] => [[c]]

/-- Substring test: JavaScript `String.prototype.includes`. -/
def containsSub : List Char → List Char → Bool
  | cs, pat =>
    pat.isPrefixOf cs ||
    match cs with
    | [] => false
    | _ :: t => containsSub t pat

def lowerL (cs : List Char) : List Char := cs.map Char.toLower

/-! ## Classifier tables (`src/metrics.ts`) -/

def CODE_EXTS : List String :=
  ["py","js","jsx","ts","tsx","mjs","cjs","java","kt","kts","scala","c","cc","cpp","cxx",
   "h","hh","hpp","hxx","cs","go","rs","swift","m","mm","rb","php","sh","bash","zsh","sql"]

def DOC_EXTS : List String := ["md","markdown","mdx"]

def SKIP_DIR_FRAGMENTS : List String :=
  [".git","node_modules","vendor","third_party","dist","build","out","target","bin","obj",
   ".venv","venv","__pycache__","Pods",".idea",".vscode"]

def TEST_DIR_HINTS : List String :=
  ["test","tests","__tests__","spec","specs","integration-tests","e2e","acceptance"]

def TEST_FILE_SUFFIXES : List String := ["_test", ".test", ".spec", "Spec", "Tests"]

def TEST_FILE_PREFIXES : List String := ["test_", "spec_"]

/-- `COMMENT_PREFIXES_BY_EXT[ext] ?? []`. -/
def commentPrefixesByExt (ext : String) : List String :=
  match ext with
  | "py" => ["#"]
  | "js" | "jsx" | "ts" | "tsx" | "java" | "kt" | "kts" | "scala" | "c" | "cc" | "cpp"
  | "cxx" | "h" | "hh" | "hpp" | "hxx" | "go" | "rs" | "swift" | "m" | "mm" => ["//"]
  | "rb" => ["#"]
  | "php" => ["//", "#"]
  | "sh" | "bash" | "zsh" => ["#"]
  | "sql" => ["--"]
  | "cs" => ["//"]
  | _ => []

/-! ## `extOf` — `path.extname(p).toLowerCase().replace(/^\./, '')`

Node's posix `path.extname` first ignores trailing `'/'` separators, takes
the last path component, and returns the substring from the component's
last `'.'` to its end — except that it returns `''` when the component has
no dot, when its only characters before the last dot are none at all (a
leading dot does not start an extension, so a dotfile like `".md"` has no
extension), or when the component is exactly `".."`. -/

def dropTrailSlash (cs : List Char) : List Char :=
  (cs.reverse.dropWhile (fun c => c = '/')).reverse

/-- The last path component (text after the last `'/'`), trailing
separators ignored — the portion `path.extname` inspects. -/
def basenameChars (cs : List Char) : List Char :=
  ((dropTrailSlash cs).reverse.takeWhile (fun c => c ≠ '/')).reverse

def extOfChars (cs : List Char) : List Char :=
  match (basenameChars cs).reverse.dropWhile (fun c => c ≠ '.') with
  | [] => []
  | _ :: rest =>
    if rest = [] then []
    else if basenameChars cs = ['.', '.'] then []
    else lowerL ((basenameChars cs).reverse.takeWhile (fun c => c ≠ '.')).reverse

def extOf (p : String) : String := String.mk (extOfChars p.data)

/-! ## `pathShouldSkip` — posix `path.normalize`, split on `path.sep`,
lowercase each segment and look it up in `SKIP_DIR_FRAGMENTS`. -/

/-- One step of Node's `normalizeString`: `''` and `'.'` segments vanish,
`'..'` pops the previous segment when possible (for relative paths a
`'..'` that cannot pop is preserved). -/
def normStep (allowAbove : Bool) (acc : List String) (seg : String) : List String :=
  if seg = "" || seg = "." then acc
  else if seg = ".." then
    if acc ≠ [] && acc.getLast? ≠ some ".." then acc.dropLast
    else if allowAbove then acc ++ [".."] else acc
  else acc ++ [seg]

def normSegs (allowAbove : Bool) (segs : List String) : List String :=
  segs.foldl (normStep allowAbove) []

/-- Posix `path.normalize`. -/
def pathNormalize (p : String) : String :=
  if p = "" then "." else
  let abs := p.data.head? = some '/'
  let trail := p.data.getLast? = some '/'
  let segs := normSegs (!abs) ((splitSlash p.data).map String.mk)
  if segs = [] then
    (if abs then "/" else if trail then "./" else ".")
  else
    (if abs then "/" else "") ++ String.intercalate "/" segs ++ (if trail then "/" else "")

def pathShouldSkip (p : String) : Bool :=
  ((splitSlash (pathNormalize p).data).map (fun seg => String.mk (lowerL seg))).any
    (fun part => SKIP_DIR_FRAGMENTS.contains part)

/-! ## `isTestPath` -/

/-- Directory-segment test: exact membership in `TEST_DIR_HINTS` or substring
containment of any hint (the source checks both even though the former is
subsumed by the latter). -/
def isTestDirSeg (seg : List Char) : Bool :=
  let low := lowerL seg
  TEST_DIR_HINTS.contains (String.mk low) ||
  TEST_DIR_HINTS.any (fun h => containsSub low h.data)

/-- Filename with the text from its last dot onwards removed
(`filename.slice(0, filename.lastIndexOf('.'))`, the whole name if dotless). -/
def baseNoExt (filename : List Char) : List Char :=
  match filename.reverse.dropWhile (fun c => c ≠ '.') with
  | [] => filename
  | _ :: rest => rest.reverse

def isTestPath (p : String) : Bool :=
  let parts := splitSlash p.data
  let dirs := parts.dropLast
  if dirs.any isTestDirSeg then true
  else
    let filename := (parts.getLast? ).getD []
    let base := baseNoExt filename
    if TEST_FILE_PREFIXES.any (fun pref => pref.data.isPrefixOf base) then true
    else TEST_FILE_SUFFIXES.any (fun sfx => sfx.data.isSuffixOf base)

/-! ## Line counters -/

/-- `countCodeLoc(text, ext)`: non-blank lines not starting (after trim)
with one of the extension's single-line comment prefixes. -/
def countCodeLoc (text : String) (ext : String) : Nat :=
  let prefixes := commentPrefixesByExt ext
  (splitRN text.data).foldl
    (fun count line =>
      let s := jsTrim line
      if s = [] then count
      else if prefixes.any (fun pref => pref.data.isPrefixOf s) then count
      else count + 1) 0

/-- `countDocLoc(text)`: non-blank lines. -/
def countDocLoc (text : String) : Nat :=
  (splitRN text.data).foldl
    (fun count line => if (jsTrim line).length > 0 then count + 1 else count) 0

/-! ## `TEST_CASE_PATTERNS` — an embedding of the per-extension JavaScript
regexes of `src/metrics.ts`.

Each regex is hand-compiled to a matcher in continuation-passing style:
character-class quantifiers (`\s*`, `\w+`, …) are greedy with full
backtracking (`mstarBT`), alternations are ordered left-to-right with the
regex's continuation distributed into each branch, and the anchors `^`/`$`
(all patterns carry the `m` flag), the word boundary `\b` and the literal
runs are matched directly.  A matcher takes the character before the
current position (for `^`/`\b`) plus the remaining text, and yields the
state after a successful match. -/

structure MState where
  prev : Option Char
  rest : List Char
deriving Repr

def Matcher : Type := MState → Option MState

/-- Match one character satisfying a class. -/
def mcls (f : Char → Bool) : Matcher := fun s =>
  match s.rest with
  | c :: t => if f c then some ⟨some c, t⟩ else none
  | [] => none

/-- Match a literal character sequence. -/
def mlit : List Char → Matcher
  | [], s => some s
  | c :: cs, s =>
    match mcls (fun d => d = c) s with
    | some s1 => mlit cs s1
    | none => none

def mlitS (l : String) : Matcher := mlit l.data

/-- Match a literal case-insensitively (for the `/i`-flagged SQL pattern). -/
def mlitCI : List Char → Matcher
  | [], s => some s
  | c :: cs, s =>
    match mcls (fun d => d.toLower = c.toLower) s with
    | some s1 => mlitCI cs s1
    | none => none

/-- Sequencing. -/
def mseq (a b : Matcher) : Matcher := fun s =>
  match a s with
  | some s1 => b s1
  | none => none

/-- Ordered alternation (first branch preferred, as in JavaScript). -/
def morelse (a b : Matcher) : Matcher := fun s =>
  match a s with
  | some r => some r
  | none => b s

/-- Greedy `class*` followed by continuation `k`, with backtracking: the
longest repetition whose continuation succeeds wins, exactly as a
JavaScript greedy quantifier behaves. -/
def mstarBTAux (f : Char → Bool) (k : Matcher) (prev : Option Char) :
    List Char → Option MState
  | [] => k ⟨prev, []⟩
  | c :: t =>
    if f c then
      match mstarBTAux f k (some c) t with
      | some r => some r
      | none => k ⟨prev, c :: t⟩
    else k ⟨prev, c :: t⟩

def mstarBT (f : Char → Bool) (k : Matcher) (s : MState) : Option MState :=
  mstarBTAux f k s.prev s.rest

/-- Greedy `class+` followed by continuation `k`. -/
def mplusBT (f : Char → Bool) (k : Matcher) : Matcher :=
  mseq (mcls f) (fun s => mstarBT f k s)

/-- Multiline `^`: start of text or right after a line terminator. -/
def mBOL : Matcher := fun s =>
  match s.prev with
  | none => some s
  | some c => if isLineTerm c then some s else none

/-- Multiline `$`: end of text or right before a line terminator. -/
def mEOL : Matcher := fun s =>
  match s.rest with
  | [] => some s
  | c :: _ => if isLineTerm c then some s else none

/-- `\b`. -/
def mWB : Matcher := fun s =>
  let pw := match s.prev with | some c => isWordChar c | none => false
  let nw := match s.rest with | c :: _ => isWordChar c | [] => false
  if pw ≠ nw then some s else none

def mch (c : Char) : Matcher := mcls (fun d => d = c)

/-- `/^\s*def\s+test_[A-Za-z0-9_]+\s*\(/gm` -/
def rePyDef : Matcher :=
  mseq mBOL (mstarBT isJsSpace (mseq (mlitS "def") (mplusBT isJsSpace
    (mseq (mlitS "test_") (mplusBT isWordChar (mstarBT isJsSpace (mch '(')))))))

/-- `/^\s*class\s+Test[A-Za-z0-9_]*\s*[:\(]/gm` -/
def rePyClass : Matcher :=
  mseq mBOL (mstarBT isJsSpace (mseq (mlitS "class") (mplusBT isJsSpace
    (mseq (mlitS "Test") (mstarBT isWordChar (mstarBT isJsSpace
      (mcls (fun c => c = ':' || c = '('))))))))

/-- `/\b(it|test)\s*\(/gm` -/
def reItTest : Matcher :=
  mseq mWB (morelse (mseq (mlitS "it") (mstarBT isJsSpace (mch '(')))
                    (mseq (mlitS "test") (mstarBT isJsSpace (mch '('))))

/-- `/@Test\b/gm` -/
def reAtTest : Matcher := mseq (mlitS "@Test") mWB

/-- `/@ParameterizedTest\b/gm` -/
def reAtParamTest : Matcher := mseq (mlitS "@ParameterizedTest") mWB

/-- `/^\s*func\s+Test[A-Z][A-Za-z0-9_]*\s*\(/gm` -/
def reGoTest : Matcher :=
  mseq mBOL (mstarBT isJsSpace (mseq (mlitS "func") (mplusBT isJsSpace
    (mseq (mlitS "Test") (mseq (mcls isUpperAZ)
      (mstarBT isWordChar (mstarBT isJsSpace (mch '('))))))))

/-- `/^\s*def\s+test_[A-Za-z0-9_]+\s*$/gm` -/
def reRbDef : Matcher :=
  mseq mBOL (mstarBT isJsSpace (mseq (mlitS "def") (mplusBT isJsSpace
    (mseq (mlitS "test_") (mplusBT isWordChar (mstarBT isJsSpace mEOL))))))

/-- `/^\s*it\s+['"]/gm` -/
def reRbIt : Matcher :=
  mseq mBOL (mstarBT isJsSpace (mseq (mlitS "it") (mplusBT isJsSpace
    (mcls (fun c => c = Char.ofNat 39 || c = '"')))))

/-- `/^\s*func\s+test[A-Z][A-Za-z0-9_]*\s*\(/gm` -/
def reSwiftTest : Matcher :=
  mseq mBOL (mstarBT isJsSpace (mseq (mlitS "func") (mplusBT isJsSpace
    (mseq (mlitS "test") (mseq (mcls isUpperAZ)
      (mstarBT isWordChar (mstarBT isJsSpace (mch '('))))))))

/-- `/\[(Fact|Theory|Test|TestCase)\]/gm` (alternation tried left to right
with the closing bracket as distributed continuation). -/
def reCsAttr : Matcher :=
  mseq (mch '[')
    (morelse (mseq (mlitS "Fact") (mch ']'))
      (morelse (mseq (mlitS "Theory") (mch ']'))
        (morelse (mseq (mlitS "Test") (mch ']'))
          (mseq (mlitS "TestCase") (mch ']')))))

/-- `/#\[test\]/gm` -/
def reRsTest : Matcher := mlitS "#[test]"

/-- `/@test\b/gm` -/
def rePhpAtTest : Matcher := mseq (mlitS "@test") mWB

/-- `/^\s*public\s+function\s+test[A-Z]/gm` -/
def rePhpFunc : Matcher :=
  mseq mBOL (mstarBT isJsSpace (mseq (mlitS "public") (mplusBT isJsSpace
    (mseq (mlitS "function") (mplusBT isJsSpace
      (mseq (mlitS "test") (mcls isUpperAZ)))))))

/-- `/\bTEST(_F|_P|_S)?\s*\(/gm` (the optional group tried before its empty
alternative, continuation distributed). -/
def reCTest : Matcher :=
  mseq mWB (mseq (mlitS "TEST")
    (morelse (mseq (mlitS "_F") (mstarBT isJsSpace (mch '(')))
      (morelse (mseq (mlitS "_P") (mstarBT isJsSpace (mch '(')))
        (morelse (mseq (mlitS "_S") (mstarBT isJsSpace (mch '(')))
          (mstarBT isJsSpace (mch '('))))))

/-- `/\bTEST\b/gi` -/
def reSqlTest : Matcher := mseq mWB (mseq (mlitCI "TEST".data) mWB)

/-- `TEST_CASE_PATTERNS[ext] ?? []`. -/
def testCasePatterns (ext : String) : List Matcher :=
  match ext with
  | "py" => [rePyDef, rePyClass]
  | "js" | "ts" | "jsx" | "tsx" | "mjs" | "cjs" => [reItTest]
  | "java" | "kt" | "kts" => [reAtTest, reAtParamTest]
  | "go" => [reGoTest]
  | "rb" => [reRbDef, reRbIt]
  | "swift" => [reSwiftTest]
  | "cs" => [reCsAttr]
  | "rs" => [reRsTest]
  | "php" => [rePhpAtTest, rePhpFunc]
  | "c" | "cpp" | "cc" | "cxx" | "h" | "hh" | "hpp" | "hxx" => [reCTest]
  | "scala" => [reItTest]
  | "sql" => [reSqlTest]
  | _ => []

/-- Count the non-overlapping global matches of a matcher over a text, as
`text.match(re)` with a `g` flag counts them: scan left to right, resume
after each match (advancing one position past an empty match). -/
def countMatchesAux (m : Matcher) : Nat → Option Char → List Char → Nat
  | 0, _, _ => 0
  | _ + 1, _, [] => 0
  | fuel + 1, prev, c :: t =>
    match m ⟨prev, c :: t⟩ with
    | none => countMatchesAux m fuel (some c) t
    | some r =>
      let consumed := (c :: t).length - r.rest.length
      if consumed = 0 then 1 + countMatchesAux m fuel (some c) t
      else 1 + countMatchesAux m fuel r.prev r.rest

def countMatches (m : Matcher) (text : String) : Nat :=
  countMatchesAux m (text.data.length + 1) none text.data

/-- `countTestCases(text, ext)`: total number of matches over the
extension's patterns. -/
def countTestCases (text : String) (ext : String) : Nat :=
  (testCasePatterns ext).foldl (fun total re => total + countMatches re text) 0

/-! ## Blob access (`src/git.ts`) -/

/-- `seemsBinary(buf)`: the content holds a NUL byte. -/
def seemsBinary (s : String) : Bool := s.data.contains (Char.ofNat 0)

/-- `catBlob(git, sha, maxBytes)` from `src/git.ts`, embedded over the raw
output of the `git cat-file -p` child process (`none` models the process
failing): an empty, oversized (in UTF-8 bytes) or binary blob yields
`none`, otherwise the text itself. -/
def catBlob (rawOut : Option String) (maxBytes : Nat) : Option String :=
  match rawOut with
  | none => none
  | some out =>
    if out = "" then none
    else if maxBytes < out.utf8ByteSize then none
    else if seemsBinary out then none
    else some out

/-! ## Per-commit aggregation (`computeMetricsForCommit` in `src/metrics.ts`) -/

structure BlobMetrics where
  codeLoc : Nat
  testCases : Nat
  docLoc : Nat
deriving Repr, DecidableEq

/-- One `git ls-tree -r -l` entry, as produced by `listTree`. -/
structure TreeEntry where
  type : String
  path : String
  sha : String
  size : Option Nat
deriving Repr, DecidableEq

/-- The blob-metrics cache (the `Map<string, BlobMetrics>` keyed by blob
sha), embedded as a function. -/
def Cache : Type := String → Option BlobMetrics

/-- The state threaded through the entry loop: the three accumulators, the
cache, and (as instrumentation of the memoization) the list of shas for
which the compute step has run, in order. -/
structure MetricsState where
  nonTestLoc : Nat
  totalTests : Nat
  docLoc : Nat
  cache : Cache
  computed : List String

/-- The compute step on a cache miss: classify-and-count the fetched text
(`none` — unreadable, oversized or binary — yields all-zero metrics). -/
def blobValue (text? : Option String) (isCode isDoc : Bool) (ext : String) : BlobMetrics :=
  match text? with
  | none => ⟨0, 0, 0⟩
  | some text =>
    ⟨if isCode then countCodeLoc text ext else 0,
     if isCode then countTestCases text ext else 0,
     if isDoc then countDocLoc text else 0⟩

/-- The metrics an entry resolves to: the cached value for its sha if
present, otherwise the freshly computed one. -/
def cachedOrComputed (raw : String → Option String) (maxFileBytes : Nat)
    (cache : Cache) (e : TreeEntry) : BlobMetrics :=
  match cache e.sha with
  | some m => m
  | none =>
    blobValue (catBlob (raw e.sha) maxFileBytes)
      (CODE_EXTS.contains (extOf e.path)) (DOC_EXTS.contains (extOf e.path))
      (extOf e.path)

/-- The accumulation step at the bottom of the entry loop: a doc entry adds
its doc lines, a code entry adds test cases (test path) or code lines. -/
def addContribution (st : MetricsState) (p : String) (isDoc isCode : Bool)
    (m : BlobMetrics) : MetricsState :=
  if isDoc then { st with docLoc := st.docLoc + m.docLoc }
  else if isCode then
    if isTestPath p then { st with totalTests := st.totalTests + m.testCases }
    else { st with nonTestLoc := st.nonTestLoc + m.codeLoc }
  else st

/-- `e.size !== null && e.size > maxFileBytes`. -/
def sizeTooBig (e : TreeEntry) (maxFileBytes : Nat) : Bool :=
  match e.size with
  | some n => decide (maxFileBytes < n)
  | none => false

/-- The body of the `for (const e of entries)` loop of
`computeMetricsForCommit`. -/
def processEntry (raw : String → Option String) (maxFileBytes : Nat)
    (st : MetricsState) (e : TreeEntry) : MetricsState :=
  if e.type ≠ "blob" then st else
  if !(CODE_EXTS.contains (extOf e.path)) && !(DOC_EXTS.contains (extOf e.path)) then st else
  if !(DOC_EXTS.contains (extOf e.path)) && pathShouldSkip e.path then st else
  if sizeTooBig e maxFileBytes then st else
  addContribution
    (match st.cache e.sha with
     | some _ => st
     | none =>
       { st with
         cache := fun k =>
           if k = e.sha then some (cachedOrComputed raw maxFileBytes st.cache e)
           else st.cache k,
         computed := st.computed ++ [e.sha] })
    e.path (DOC_EXTS.contains (extOf e.path)) (CODE_EXTS.contains (extOf e.path))
    (cachedOrComputed raw maxFileBytes st.cache e)

def runEntries (raw : String → Option String) (maxFileBytes : Nat)
    (entries : List TreeEntry) (st : MetricsState) : MetricsState :=
  entries.foldl (processEntry raw maxFileBytes) st

/-- `computeMetricsForCommit`: fold the tree entries starting from zeroed
accumulators and the run's shared cache. -/
def computeMetricsForCommit (raw : String → Option String) (maxFileBytes : Nat)
    (entries : List TreeEntry) (cache : Cache) : MetricsState :=
  runEntries raw maxFileBytes entries ⟨0, 0, 0, cache, []⟩

/-- The three per-commit totals. -/
def totalsOf (st : MetricsState) : Nat × Nat × Nat :=
  (st.nonTestLoc, st.totalTests, st.docLoc)

/-! ## Rolling commit-message-length average (`main` in
`src/repo-metrics.ts`, lines 45–56) -/

structure AvgState where
  window : List Nat
  sum : Nat
deriving Repr, DecidableEq

/-- One iteration of the rolling-average bookkeeping: push the new length,
add it to the running sum, and when the window exceeds `win` shift the
oldest length out and subtract it. -/
def avgStep (win : Nat) (st : AvgState) (len : Nat) : AvgState :=
  let w := st.window ++ [len]
  let s := st.sum + len
  if win < w.length then ⟨w.drop 1, s - w.headD 0⟩ else ⟨w, s⟩

/-- The average recorded into the row: `msgLenSum / msgLenWindow.length`. -/
def avgOf (st : AvgState) : ℚ := (st.sum : ℚ) / (st.window.length : ℚ)

/-- The sequence of `commitMsgLenAvg` values recorded for a sequence of
message lengths, starting from a given window state. -/
def avgList (win : Nat) (st : AvgState) : List Nat → List ℚ
  | [] => []
  | l :: ls =>
    let st1 := avgStep win st l
    avgOf st1 :: avgList win st1 ls

/-! ## Empty-history handling (`main` in `src/repo-metrics.ts`, lines 35–36) -/

/-- The `--sample-every` filter applied by `main` before the emptiness
check: keep indices divisible by `sampleEvery` when it exceeds 1. -/
def mainSelectCommits (sampleEvery : Nat) (commits : List String) : List String :=
  if 1 < sampleEvery then
    ((commits.enum.filter (fun p => p.1 % sampleEvery = 0)).map Prod.snd)
  else commits

/-- The outcome of `main`'s commit-list stage: an empty filtered list makes
the process exit with status 4 (`Except.error 4`) before any row is
produced; otherwise the commits proceed to processing. -/
def mainCommitsOutcome (sampleEvery : Nat) (commits : List String) :
    Except Nat (List String) :=
  let cs := mainSelectCommits sampleEvery commits
  if cs.length = 0 then Except.error 4 else Except.ok cs

/-! ## `sanitizeRepoForDisplay` (`src/cli.ts`) -/

/-- The parsed-URL components the function reads or writes: `protocol`
(scheme, lowercased, with trailing colon), `username`, `password`, `host`
(lowercased) and `pathname`. -/
structure UrlParts where
  protocol : List Char
  username : List Char
  password : List Char
  host : List Char
  pathname : List Char
deriving Repr, DecidableEq

/-- `/^[a-z]+:\/\//i.test(s)`. -/
def hasUrlScheme (cs : List Char) : Bool :=
  !(cs.takeWhile isAsciiAlpha).isEmpty &&
    "://".data.isPrefixOf (cs.dropWhile isAsciiAlpha)

/-- `new URL(s)` on the portless well-formed repository URLs the tool
meets: `scheme://[user[:pass]@]host[/path]`, the userinfo ending at the
last `'@'` of the authority and the password starting at the userinfo's
first `':'`.  Inputs outside this shape (empty host, empty scheme, a
non-alphabetic scheme, a port) are rejected, modelling the constructor
throwing. -/
def hasAt (l : List Char) : Bool := l.any (fun c => c = '@')

def hasColon (l : List Char) : Bool := l.any (fun c => c = ':')

/-- The host component of an authority: the text after the last `'@'`
(WHATWG: the host starts after the final `'@'` of the authority). -/
def authHost (authority : List Char) : List Char :=
  if hasAt authority then (authority.reverse.takeWhile (fun c => c ≠ '@')).reverse
  else authority

/-- The userinfo component of an authority: the text before the last `'@'`. -/
def authUserinfo (authority : List Char) : List Char :=
  if hasAt authority then
    ((authority.reverse.dropWhile (fun c => c ≠ '@')).drop 1).reverse
  else []

def mkUrlParts (scheme authority pathRest : List Char) : Option UrlParts :=
  if (authHost authority).isEmpty || hasColon (authHost authority) ||
      hasAt (authHost authority) then none
  else
    some ⟨lowerL scheme ++ [':'],
          (authUserinfo authority).takeWhile (fun c => c ≠ ':'),
          ((authUserinfo authority).dropWhile (fun c => c ≠ ':')).drop 1,
          lowerL (authHost authority),
          if pathRest.isEmpty then ['/'] else pathRest⟩

def parseUrl (cs : List Char) : Option UrlParts :=
  if [':', '/', '/'].isPrefixOf (cs.dropWhile (fun c => c ≠ ':')) then
    if (cs.takeWhile (fun c => c ≠ ':')).isEmpty ||
        !(cs.takeWhile (fun c => c ≠ ':')).all isAsciiAlpha then none
    else
      mkUrlParts (cs.takeWhile (fun c => c ≠ ':'))
        (((cs.dropWhile (fun c => c ≠ ':')).drop 3).takeWhile (fun c => c ≠ '/'))
        (((cs.dropWhile (fun c => c ≠ ':')).drop 3).dropWhile (fun c => c ≠ '/'))
  else none

/-- `s.replace(/\/\/[^@]+@/, '//****@')`: rewrite the leftmost occurrence
of `"//"`, one or more non-`'@'` characters, `'@'`. -/
def replaceCredL : List Char → List Char
  | [] => []
  | '/' :: '/' :: t =>
    let munch := t.takeWhile (fun c => c ≠ '@')
    match munch, t.dropWhile (fun c => c ≠ '@') with
    | _ :: _, '@' :: restAfter => "//****@".data ++ restAfter
    | _, _ => '/' :: replaceCredL ('/' :: t)
  | c :: t => c :: replaceCredL t

/-- Posix `path.basename`. -/
def posixBasename (cs : List Char) : List Char :=
  ((dropTrailSlash cs).reverse.takeWhile (fun c => c ≠ '/')).reverse

/-- Posix `path.resolve(s)` against the process working directory. -/
def posixResolve (cwd : String) (s : String) : String :=
  let joined := if s.data.head? = some '/' then s.data else cwd.data ++ '/' :: s.data
  let segs := normSegs false ((splitSlash joined).map String.mk)
  if segs = [] then "/" else "/" ++ String.intercalate "/" segs

/-- `if (u.username) u.username = '****'`. -/
def maskUsername (u : UrlParts) : UrlParts :=
  if !u.username.isEmpty then { u with username := "****".data } else u

/-- `if (u.password) u.password = ''`. -/
def clearPassword (u : UrlParts) : UrlParts :=
  if !u.password.isEmpty then { u with password := [] } else u

/-- `sanitizeRepoForDisplay(s)`: for URL-looking inputs, parse, mask the
username, clear the password, and render only `protocol//host + pathname`;
if parsing throws, fall back to the credential-masking regex replace.
Non-URL inputs display as the basename of their resolved path. -/
def sanitizeRepoForDisplay (cwd : String) (s : String) : String :=
  if hasUrlScheme s.data || s.endsWith ".git" then
    match parseUrl s.data with
    | some u =>
      String.mk ((clearPassword (maskUsername u)).protocol ++ ['/', '/'] ++
        (clearPassword (maskUsername u)).host ++ (clearPassword (maskUsername u)).pathname)
    | none => String.mk (replaceCredL s.data)
  else String.mk (posixBasename (posixResolve cwd s).data)

/-- The rendered userinfo block of a URL: empty when both credential parts
are empty, otherwise `user[:pass]@`. -/
def uiOf (user pass : String) : List Char :=
  if user.data.isEmpty && pass.data.isEmpty then []
  else user.data ++ (if pass.data.isEmpty then [] else ':' :: pass.data) ++ ['@']

/-- A well-formed repository URL assembled from components — the input
shape over which the credential-stripping property is stated. -/
def renderUrl (scheme user pass host pth : String) : String :=
  String.mk (scheme.data ++ [':', '/', '/'] ++ uiOf user pass ++ host.data ++ pth.data)

/-! ## Invariants used by the cache theorems -/

/-- The memoization invariant of the blob cache relative to the cache `c0`
the run started from: computed shas are distinct, only identities absent
from `c0` are ever computed, entries of `c0` survive unchanged, and every
computed identity is stored. -/
def CacheInv (c0 : Cache) (st : MetricsState) : Prop :=
  st.computed.Nodup ∧
  (∀ s ∈ st.computed, c0 s = none) ∧
  (∀ s m, c0 s = some m → st.cache s = some m) ∧
  (∀ s ∈ st.computed, st.cache s ≠ none)

/-- Relates two loop states that agree everywhere except that one of them
may additionally hold the canonical zero-metrics entry for the identity
`sha` of an unreadable blob. -/
def ZeroRel (sha : String) (s1 s2 : MetricsState) : Prop :=
  s1.nonTestLoc = s2.nonTestLoc ∧ s1.totalTests = s2.totalTests ∧
  s1.docLoc = s2.docLoc ∧
  (∀ k, k ≠ sha → s1.cache k = s2.cache k) ∧
  (s1.cache sha = none ∨ s1.cache sha = some ⟨0, 0, 0⟩) ∧
  (s2.cache sha = none ∨ s2.cache sha = some ⟨0, 0, 0⟩)

/-- The window the rolling average should cover after `k` processed rows:
the last `min k N` of the first `k` message lengths. -/
def windowAt (N : Nat) (lens : List Nat) (k : Nat) : List Nat :=
  (lens.take k).drop (k - N)

/-! # Theorems -/

section Lemmas

lemma takeWhile_append_stop {α} (p : α → Bool) (xs ys : List α)
    (hx : ∀ a ∈ xs, p a = true) (hy : ∀ b, ys.head? = some b → p b = false) :
    (xs ++ ys).takeWhile p = xs := by
  induction xs with
  | nil =>
    cases ys with
    | nil => rfl
    | cons b t => simp [List.takeWhile_cons, hy b rfl]
  | cons a as ih =>
    have pa := hx a (List.mem_cons_self _ _)
    simp only [List.cons_append, List.takeWhile_cons, pa, if_true]
    rw [ih (fun a h => hx a (List.mem_cons_of_mem _ h))]

lemma dropWhile_append_stop {α} (p : α → Bool) (xs ys : List α)
    (hx : ∀ a ∈ xs, p a = true) (hy : ∀ b, ys.head? = some b → p b = false) :
    (xs ++ ys).dropWhile p = ys := by
  induction xs with
  | nil =>
    cases ys with
    | nil => rfl
    | cons b t => simp [List.dropWhile_cons, hy b rfl]
  | cons a as ih =>
    have pa := hx a (List.mem_cons_self _ _)
    simp only [List.cons_append, List.dropWhile_cons, pa, if_true]
    exact ih (fun a h => hx a (List.mem_cons_of_mem _ h))

lemma dropWhile_eq_self_all_false {α} (p : α → Bool) (l : List α)
    (h : ∀ a ∈ l, p a = false) : l.dropWhile p = l := by
  cases l with
  | nil => rfl
  | cons a t => simp [List.dropWhile_cons, h a (List.mem_cons_self _ _)]

lemma takeWhile_eq_self_all_true {α} (p : α → Bool) (l : List α)
    (h : ∀ a ∈ l, p a = true) : l.takeWhile p = l := by
  induction l with
  | nil => rfl
  | cons a t ih =>
    simp only [List.takeWhile_cons, h a (List.mem_cons_self _ _), if_true]
    rw [ih (fun a ha => h a (List.mem_cons_of_mem _ ha))]

/-- The extension tables are disjoint: a code extension is never a
documentation extension. -/
lemma code_ext_not_doc_ext (s : String) (h : CODE_EXTS.contains s = true) :
    DOC_EXTS.contains s = false := by
  cases hd : DOC_EXTS.contains s with
  | false => rfl
  | true =>
    exfalso
    have hs : s = "md" ∨ s = "markdown" ∨ s = "mdx" := by
      simpa [DOC_EXTS, List.contains, List.elem_cons] using hd
    rcases hs with rfl | rfl | rfl <;> exact absurd h (by decide)

end Lemmas

/-- C1: a one-commit tree holding `foo.py` (one leading-comment line, two
code lines), `test_foo.py` (one test-function definition) and `README.md`
(two non-blank lines) aggregates to `nonTestLoc = 2`, `totalTests = 1`,
`docLoc = 2`. -/
theorem c1_end_to_end_scenario :
    totalsOf (computeMetricsForCommit
      (fun sha =>
        if sha = "sf" then some "# comment\nx = 1\ny = 2\n"
        else if sha = "st" then some "def test_foo():\n    assert True\n"
        else if sha = "sr" then some "# Title\n\nHello\n"
        else none)
      1000000
      [⟨"blob", "foo.py", "sf", none⟩, ⟨"blob", "test_foo.py", "st", none⟩,
       ⟨"blob", "README.md", "sr", none⟩]
      (fun _ => none)) = (2, 1, 2) := by
  decide

/-- C9: an empty (post-sampling) commit list makes the run exit with the
distinguishable status 4 — never a successful empty series: for no input
does the commit-list stage succeed with an empty list. -/
theorem c9_empty_history_no_work :
    ∀ sampleEvery : Nat,
      mainCommitsOutcome sampleEvery [] = Except.error 4 ∧
      ∀ commits : List String,
        mainCommitsOutcome sampleEvery commits ≠ Except.ok [] := by
  intro sampleEvery
  constructor
  · simp [mainCommitsOutcome, mainSelectCommits]
  · intro commits h
    unfold mainCommitsOutcome at h
    by_cases hz : (mainSelectCommits sampleEvery commits).length = 0
    · simp [hz] at h
    · simp [hz] at h
      exact hz (by rw [h]; rfl)

/-- C9 witness at a concrete input. -/
theorem c9_empty_history_no_work_witness :
    mainCommitsOutcome 1 [] = Except.error 4 ∧
    mainCommitsOutcome 1 ["a"] ≠ Except.ok [] :=
  ⟨(c9_empty_history_no_work 1).1, (c9_empty_history_no_work 1).2 ["a"]⟩

/-- C6: classification is a partition — no path is both code and
documentation, and a path matching neither leaves the loop state (totals,
cache and compute-instrumentation alike) untouched. -/
theorem c6_classification_partition :
    (∀ p : String,
       CODE_EXTS.contains (extOf p) = true → DOC_EXTS.contains (extOf p) = false) ∧
    (∀ (raw : String → Option String) (maxFileBytes : Nat) (st : MetricsState)
       (e : TreeEntry),
       CODE_EXTS.contains (extOf e.path) = false →
       DOC_EXTS.contains (extOf e.path) = false →
       processEntry raw maxFileBytes st e = st) := by
  constructor
  · intro p h
    exact code_ext_not_doc_ext _ h
  · intro raw maxFileBytes st e hc hd
    unfold processEntry
    rw [hc, hd]
    by_cases ht : e.type = "blob"
    · simp [ht]
    · simp [ht]

/-- C6 witness at a concrete input: `.py` is code-only; an unrecognized
extension leaves the state unchanged. -/
theorem c6_classification_partition_witness :
    DOC_EXTS.contains (extOf "a.py") = false ∧
    processEntry (fun _ => some "x") 100 ⟨0, 0, 0, fun _ => none, []⟩
      ⟨"blob", "a.xyz", "s", none⟩ = ⟨0, 0, 0, fun _ => none, []⟩ :=
  ⟨c6_classification_partition.1 "a.py" (by decide),
   c6_classification_partition.2 (fun _ => some "x") 100 _ _ (by decide) (by decide)⟩

/-- C7 counterexample: a dotfile whose only dot is its leading character is
NOT classified by the text following the dot — `.md` and `.py` have no
extension at all and are classified as neither, so a `.md` entry
contributes nothing. -/
theorem c7_counterexample :
    extOf ".md" = "" ∧ extOf ".py" = "" ∧
    DOC_EXTS.contains (extOf ".md") = false ∧
    CODE_EXTS.contains (extOf ".py") = false ∧
    totalsOf (processEntry (fun _ => some "Hello\n") 100
      ⟨0, 0, 0, fun _ => none, []⟩ ⟨"blob", ".md", "s", none⟩) = (0, 0, 0) ∧
    (processEntry (fun _ => some "Hello\n") 100
      ⟨0, 0, 0, fun _ => none, []⟩ ⟨"blob", ".md", "s", none⟩).computed = [] := by
  decide

/-- C7 (amended): the category is determined by the case-insensitive
extension — the substring after the last dot of the final path component —
except that a dot beginning the component does not begin an extension: a
dotfile whose only dot is its leading character has the empty extension
and is classified as neither code nor documentation. -/
theorem c7_dotfile_amended :
    ∀ base : String, base.data ≠ [] →
      (∀ c ∈ base.data, c ≠ '.' ∧ c ≠ '/') →
      extOf ("." ++ base) = "" ∧
      CODE_EXTS.contains (extOf ("." ++ base)) = false ∧
      DOC_EXTS.contains (extOf ("." ++ base)) = false := by
  intro base hne hc
  have hmem : ∀ c ∈ ('.' :: base.data), c ≠ '/' := by
    intro c hm
    rcases List.mem_cons.mp hm with rfl | hm
    · decide
    · exact (hc c hm).2
  have hb : basenameChars ('.' :: base.data) = '.' :: base.data := by
    unfold basenameChars dropTrailSlash
    rw [dropWhile_eq_self_all_false _ _
      (fun a ha => by
        simp only [decide_eq_false_iff_not]
        exact hmem a (List.mem_reverse.mp ha))]
    rw [List.reverse_reverse]
    rw [takeWhile_eq_self_all_true _ _
      (fun a ha => by
        simp only [decide_eq_true_eq]
        exact hmem a (List.mem_reverse.mp ha))]
    exact List.reverse_reverse _
  have hkey : extOfChars ('.' :: base.data) = [] := by
    unfold extOfChars
    rw [hb]
    rw [show ('.' :: base.data).reverse = base.data.reverse ++ ['.'] from by simp]
    rw [dropWhile_append_stop _ _ ['.']
      (fun a ha => by
        simp only [decide_eq_true_eq]
        exact (hc a (List.mem_reverse.mp ha)).1)
      (fun b hbh => by
        simp only [List.head?_cons, Option.some_inj] at hbh
        subst hbh
        decide)]
    rfl
  have hext : extOf ("." ++ base) = "" := by
    unfold extOf
    have hdata : ("." ++ base).data = '.' :: base.data := rfl
    rw [hdata, hkey]
  refine ⟨hext, ?_, ?_⟩ <;> rw [hext] <;> decide

/-- C7 amended-claim witness at a concrete dotfile. -/
theorem c7_dotfile_amended_witness :
    extOf ".md" = "" ∧
    CODE_EXTS.contains (extOf ".md") = false ∧
    DOC_EXTS.contains (extOf ".md") = false :=
  c7_dotfile_amended "md" (by decide) (by decide)

/-- C2 counterexample: the same content identity `"s"`, backed by the same
blob content `"hello"`, caches `⟨1,0,0⟩` when a `.py` path is met first but
`⟨0,0,1⟩` when a `.md` path is met first — the stored value depends on the
file path that first caused computation, not only on the byte content. -/
theorem c2_counterexample :
    ((computeMetricsForCommit (fun _ => some "hello") 100
        [⟨"blob", "a.py", "s", none⟩, ⟨"blob", "b.md", "s", none⟩]
        (fun _ => none)).cache "s" = some ⟨1, 0, 0⟩) ∧
    ((computeMetricsForCommit (fun _ => some "hello") 100
        [⟨"blob", "b.md", "s", none⟩, ⟨"blob", "a.py", "s", none⟩]
        (fun _ => none)).cache "s" = some ⟨0, 0, 1⟩) := by
  decide

section Lemmas

/-- The loop body depends on the blob store only through the entry's own
content identity. -/
lemma processEntry_raw_congr (raw1 raw2 : String → Option String)
    (maxFileBytes : Nat) (st : MetricsState) (e : TreeEntry)
    (h : raw1 e.sha = raw2 e.sha) :
    processEntry raw1 maxFileBytes st e = processEntry raw2 maxFileBytes st e := by
  unfold processEntry cachedOrComputed
  simp only [h]

end Lemmas

/-- C2 (amended): the cached BlobMetrics for a content identity are
computed at most once per run and are a function of the blob's byte
content and the entry sequence (whose first computing entry fixes the
classification): two runs over the same entries from the same state, whose
blob stores agree on every entry's content identity, produce identical
states — totals, cache and computation log alike.  (The counterexample
shows the first path's extension cannot be dropped from this dependency.) -/
theorem c2_amended_content_determinism :
    ∀ (raw1 raw2 : String → Option String) (maxFileBytes : Nat)
      (entries : List TreeEntry) (st : MetricsState),
      (∀ e ∈ entries, raw1 e.sha = raw2 e.sha) →
      runEntries raw1 maxFileBytes entries st = runEntries raw2 maxFileBytes entries st := by
  intro raw1 raw2 maxFileBytes entries
  induction entries with
  | nil => intro st _; rfl
  | cons e es ih =>
    intro st h
    unfold runEntries
    simp only [List.foldl_cons]
    rw [processEntry_raw_congr raw1 raw2 maxFileBytes st e
      (h e (List.mem_cons_self _ _))]
    exact ih _ (fun x hx => h x (List.mem_cons_of_mem _ hx))

/-- C2 amended-claim witness: two observationally different blob stores
agreeing on the one entry's identity yield the same run state. -/
theorem c2_amended_content_determinism_witness :
    runEntries (fun s => if s = "s" then some "hello" else none) 100
      [⟨"blob", "a.py", "s", none⟩] ⟨0, 0, 0, fun _ => none, []⟩ =
    runEntries (fun s => if s = "s" then some "hello" else some "other") 100
      [⟨"blob", "a.py", "s", none⟩] ⟨0, 0, 0, fun _ => none, []⟩ :=
  c2_amended_content_determinism _ _ 100 _ _
    (by
      intro e he
      rw [List.mem_singleton.mp he]
      rfl)

/-- C5: the ignored-directory skip is asymmetric — a documentation file on
a skipped path still adds its doc-line count, while a code file on a
skipped path leaves the state untouched. -/
theorem c5_skip_asymmetry :
    (∀ (raw : String → Option String) (maxFileBytes : Nat) (st : MetricsState)
       (e : TreeEntry),
       e.type = "blob" → DOC_EXTS.contains (extOf e.path) = true →
       sizeTooBig e maxFileBytes = false → pathShouldSkip e.path = true →
       (processEntry raw maxFileBytes st e).docLoc =
         st.docLoc + (cachedOrComputed raw maxFileBytes st.cache e).docLoc) ∧
    (∀ (raw : String → Option String) (maxFileBytes : Nat) (st : MetricsState)
       (e : TreeEntry),
       CODE_EXTS.contains (extOf e.path) = true → pathShouldSkip e.path = true →
       processEntry raw maxFileBytes st e = st) := by
  constructor
  · intro raw maxFileBytes st e ht hd hsz hskip
    have hdm : extOf e.path ∈ DOC_EXTS := by simpa using hd
    unfold processEntry
    rw [if_neg (by simp [ht])]
    rw [if_neg (by simp [hdm])]
    rw [if_neg (by simp [hdm])]
    rw [if_neg (by simp [hsz])]
    cases hcc : st.cache e.sha <;> simp [addContribution, hdm, hcc]
  · intro raw maxFileBytes st e hcode hskip
    have hcm : extOf e.path ∈ CODE_EXTS := by simpa using hcode
    have hdm : extOf e.path ∉ DOC_EXTS := by
      simpa using code_ext_not_doc_ext _ hcode
    unfold processEntry
    by_cases ht : e.type = "blob"
    · rw [if_neg (by simp [ht])]
      rw [if_neg (by simp [hcm])]
      rw [if_pos (by simp [hdm, hskip])]
    · rw [if_pos (by simp [ht])]

/-- C5 witness: a Markdown file under `node_modules` still contributes its
one doc line; a code file under `node_modules` contributes nothing. -/
theorem c5_skip_asymmetry_witness :
    (processEntry (fun _ => some "hi") 100 ⟨0, 0, 0, fun _ => none, []⟩
      ⟨"blob", "node_modules/x/README.md", "s1", none⟩).docLoc =
      0 + (cachedOrComputed (fun _ => some "hi") 100 (fun _ => none)
        ⟨"blob", "node_modules/x/README.md", "s1", none⟩).docLoc ∧
    processEntry (fun _ => some "hi") 100 ⟨0, 0, 0, fun _ => none, []⟩
      ⟨"blob", "node_modules/x/a.py", "s2", none⟩ = ⟨0, 0, 0, fun _ => none, []⟩ :=
  ⟨c5_skip_asymmetry.1 _ 100 _ _ (by decide) (by decide) (by decide) (by decide),
   c5_skip_asymmetry.2 _ 100 _ _ (by decide) (by decide)⟩

section Lemmas

lemma addContribution_cache (st : MetricsState) (p : String) (d c : Bool)
    (m : BlobMetrics) : (addContribution st p d c m).cache = st.cache := by
  cases d with
  | true => simp [addContribution]
  | false =>
    cases c with
    | true => cases htp : isTestPath p <;> simp [addContribution, htp]
    | false => simp [addContribution]

lemma addContribution_computed (st : MetricsState) (p : String) (d c : Bool)
    (m : BlobMetrics) : (addContribution st p d c m).computed = st.computed := by
  cases d with
  | true => simp [addContribution]
  | false =>
    cases c with
    | true => cases htp : isTestPath p <;> simp [addContribution, htp]
    | false => simp [addContribution]

lemma cacheInv_of_eq {c0 : Cache} {st st' : MetricsState} (h : CacheInv c0 st)
    (hc : st'.cache = st.cache) (hm : st'.computed = st.computed) :
    CacheInv c0 st' := by
  unfold CacheInv at h ⊢
  rw [hc, hm]
  exact h

lemma processEntry_cacheInv (raw : String → Option String) (maxFileBytes : Nat)
    (c0 : Cache) (st : MetricsState) (e : TreeEntry) (h : CacheInv c0 st) :
    CacheInv c0 (processEntry raw maxFileBytes st e) := by
  obtain ⟨h1, h2, h3, h4⟩ := h
  unfold processEntry
  split
  · exact ⟨h1, h2, h3, h4⟩
  split
  · exact ⟨h1, h2, h3, h4⟩
  split
  · exact ⟨h1, h2, h3, h4⟩
  split
  · exact ⟨h1, h2, h3, h4⟩
  cases hcc : st.cache e.sha with
  | some m =>
    exact cacheInv_of_eq ⟨h1, h2, h3, h4⟩ (addContribution_cache _ _ _ _ _)
      (addContribution_computed _ _ _ _ _)
  | none =>
    have hnotin : e.sha ∉ st.computed := fun hin => (h4 _ hin) hcc
    refine cacheInv_of_eq ?_ (addContribution_cache _ _ _ _ _)
      (addContribution_computed _ _ _ _ _)
    refine ⟨?_, ?_, ?_, ?_⟩
    · exact List.Nodup.append h1 (List.nodup_singleton _)
        (fun x hx hy => hnotin (by rwa [List.mem_singleton.mp hy] at hx))
    · intro s hs
      rcases List.mem_append.mp hs with hs | hs
      · exact h2 s hs
      · rw [List.mem_singleton.mp hs]
        cases hc0 : c0 e.sha with
        | none => rfl
        | some m => exact absurd (h3 _ _ hc0) (by rw [hcc]; exact fun h => by cases h)
    · intro s m hm
      by_cases hse : s = e.sha
      · subst hse
        exact absurd (h3 _ _ hm) (by rw [hcc]; exact fun h => by cases h)
      · simpa [hse] using h3 _ _ hm
    · intro s hs
      by_cases hse : s = e.sha
      · subst hse
        simp
      · rcases List.mem_append.mp hs with hs | hs
        · simpa [hse] using h4 _ hs
        · exact absurd (List.mem_singleton.mp hs) hse

lemma runEntries_cacheInv (raw : String → Option String) (maxFileBytes : Nat)
    (c0 : Cache) (entries : List TreeEntry) :
    ∀ st : MetricsState, CacheInv c0 st →
      CacheInv c0 (runEntries raw maxFileBytes entries st) := by
  induction entries with
  | nil => intro st h; exact h
  | cons e es ih =>
    intro st h
    exact ih _ (processEntry_cacheInv raw maxFileBytes c0 st e h)

end Lemmas

/-- C4: the cache computes each content identity at most once per run (the
compute log is duplicate-free and only ever mentions identities absent
from the incoming cache), stores every computed result, and returns
already-stored results unchanged (entries of the incoming cache survive
verbatim). -/
theorem c4_cache_at_most_once :
    ∀ (raw : String → Option String) (maxFileBytes : Nat)
      (entries : List TreeEntry) (c0 : Cache),
      (computeMetricsForCommit raw maxFileBytes entries c0).computed.Nodup ∧
      (∀ s ∈ (computeMetricsForCommit raw maxFileBytes entries c0).computed,
         c0 s = none) ∧
      (∀ s m, c0 s = some m →
         (computeMetricsForCommit raw maxFileBytes entries c0).cache s = some m) ∧
      (∀ s ∈ (computeMetricsForCommit raw maxFileBytes entries c0).computed,
         (computeMetricsForCommit raw maxFileBytes entries c0).cache s ≠ none) := by
  intro raw maxFileBytes entries c0
  exact runEntries_cacheInv raw maxFileBytes c0 entries ⟨0, 0, 0, c0, []⟩
    ⟨List.nodup_nil, fun s hs => absurd hs (List.not_mem_nil s),
     fun s m hm => hm, fun s hs => absurd hs (List.not_mem_nil s)⟩

/-- C4 witness: in a concrete run the compute log is duplicate-free and a
pre-stored identity is returned unchanged. -/
theorem c4_cache_at_most_once_witness :
    (computeMetricsForCommit (fun _ => some "hello") 100
      [⟨"blob", "a.py", "s", none⟩, ⟨"blob", "b.py", "s", none⟩]
      (fun k => if k = "k" then some ⟨9, 8, 7⟩ else none)).computed.Nodup ∧
    (computeMetricsForCommit (fun _ => some "hello") 100
      [⟨"blob", "a.py", "s", none⟩, ⟨"blob", "b.py", "s", none⟩]
      (fun k => if k = "k" then some ⟨9, 8, 7⟩ else none)).cache "k" =
      some ⟨9, 8, 7⟩ :=
  ⟨(c4_cache_at_most_once (fun _ => some "hello") 100
      [⟨"blob", "a.py", "s", none⟩, ⟨"blob", "b.py", "s", none⟩]
      (fun k => if k = "k" then some ⟨9, 8, 7⟩ else none)).1,
   (c4_cache_at_most_once (fun _ => some "hello") 100
      [⟨"blob", "a.py", "s", none⟩, ⟨"blob", "b.py", "s", none⟩]
      (fun k => if k = "k" then some ⟨9, 8, 7⟩ else none)).2.2.1 "k" ⟨9, 8, 7⟩
      (by simp)⟩

section Lemmas

lemma sum_eq_headD_add_drop (w : List Nat) (h : w ≠ []) :
    w.sum = w.headD 0 + (w.drop 1).sum := by
  cases w with
  | nil => exact absurd rfl h
  | cons a t => simp

lemma headD_append_singleton (w : List Nat) (l : Nat) (h : w ≠ []) :
    (w ++ [l]).headD 0 = w.headD 0 := by
  cases w with
  | nil => exact absurd rfl h
  | cons a t => simp

/-- After `k` processed message lengths the incremental state holds exactly
the trailing window and its sum. -/
lemma foldl_avgStep_windowAt (N : Nat) (hN : 1 ≤ N) (lens : List Nat) :
    ∀ k, k ≤ lens.length →
      List.foldl (avgStep N) ⟨[], 0⟩ (lens.take k) =
        ⟨windowAt N lens k, (windowAt N lens k).sum⟩ := by
  intro k
  induction k with
  | zero => intro _; simp [windowAt]
  | succ k ih =>
    intro hk
    have hk' : k < lens.length := Nat.lt_of_succ_le hk
    have htake : lens.take (k + 1) = lens.take k ++ [lens.get ⟨k, hk'⟩] := by
      rw [List.take_succ]
      simp [List.getElem?_eq_getElem hk']
    have hlen : (lens.take k).length = k := by
      simp [Nat.min_eq_left (Nat.le_of_lt hk')]
    rw [htake, List.foldl_append, ih (Nat.le_of_lt hk')]
    simp only [List.foldl_cons, List.foldl_nil]
    have hwlen : (windowAt N lens k).length = k - (k - N) := by
      simp [windowAt, hlen]
    by_cases hNk : N ≤ k
    · have hw : (windowAt N lens k).length = N := by
        rw [hwlen, Nat.sub_sub_self hNk]
      have hne : windowAt N lens k ≠ [] := by
        intro hnil
        rw [hnil] at hw
        simp at hw
        omega
      have hcond : N < (windowAt N lens k ++ [lens.get ⟨k, hk'⟩]).length := by
        simp [hw]
      unfold avgStep
      rw [if_pos hcond]
      have hdrop : (windowAt N lens k ++ [lens.get ⟨k, hk'⟩]).drop 1 =
          windowAt N lens (k + 1) := by
        rw [List.drop_append_eq_append_drop]
        rw [show 1 - (windowAt N lens k).length = 0 by omega]
        unfold windowAt
        rw [List.drop_drop, htake, List.drop_append_eq_append_drop, hlen]
        rw [show k + 1 - N - k = 0 by omega]
        rw [show k - N + 1 = k + 1 - N by omega]
      have hsum : (windowAt N lens k).sum + lens.get ⟨k, hk'⟩ -
          (windowAt N lens k ++ [lens.get ⟨k, hk'⟩]).headD 0 =
          (windowAt N lens (k + 1)).sum := by
        rw [headD_append_singleton _ _ hne]
        rw [← hdrop, List.drop_append_eq_append_drop,
          show 1 - (windowAt N lens k).length = 0 by omega]
        have hh := sum_eq_headD_add_drop (windowAt N lens k) hne
        simp only [List.drop_zero, List.sum_append, List.sum_cons, List.sum_nil]
        omega
      rw [← hdrop]
      simp only [AvgState.mk.injEq]
      exact ⟨trivial, by rw [hdrop]; exact hsum⟩
    · have hk0 : k - N = 0 := by omega
      have hcond : ¬ (N < (windowAt N lens k ++ [lens.get ⟨k, hk'⟩]).length) := by
        rw [List.length_append, hwlen, hk0]
        simp
        omega
      unfold avgStep
      rw [if_neg hcond]
      have hwin : windowAt N lens (k + 1) = windowAt N lens k ++ [lens.get ⟨k, hk'⟩] := by
        unfold windowAt
        rw [show k + 1 - N = 0 by omega, hk0, htake]
        simp
      rw [hwin]
      simp

/-- The `i`-th recorded average is the average of the incremental state
after `i + 1` processed lengths. -/
lemma avgList_getD (N : Nat) :
    ∀ (lens : List Nat) (st : AvgState) (i : Nat), i < lens.length →
      (avgList N st lens).getD i 0 =
        avgOf (List.foldl (avgStep N) st (lens.take (i + 1))) := by
  intro lens
  induction lens with
  | nil => intro st i h; simp at h
  | cons l ls ih =>
    intro st i h
    cases i with
    | zero => simp [avgList, List.take_succ]
    | succ i =>
      have h' : i < ls.length := by simpa using h
      simp only [avgList, List.getD_cons_succ, List.take_succ_cons, List.foldl_cons]
      exact ih _ i h'

end Lemmas

/-- C3: for every window size `N ≥ 1` the rolling average recorded at row
`i` is the arithmetic mean of the message lengths of rows
`max(0, i−N+1) .. i` inclusive (here `i+1−N .. i` in truncated natural
subtraction). -/
theorem c3_rolling_average :
    ∀ (N : Nat) (lens : List Nat) (i : Nat), 1 ≤ N → i < lens.length →
      (avgList N ⟨[], 0⟩ lens).getD i 0 =
        ((((lens.take (i + 1)).drop (i + 1 - N)).sum : ℚ) /
          ((((lens.take (i + 1)).drop (i + 1 - N)).length : ℕ) : ℚ)) := by
  intro N lens i hN hi
  rw [avgList_getD N lens ⟨[], 0⟩ i hi]
  rw [foldl_avgStep_windowAt N hN lens (i + 1) (Nat.succ_le_of_lt hi)]
  unfold avgOf windowAt
  rfl

section Lemmas

/-- The amount a surviving entry adds to `nonTestLoc`. -/
def contribNon (p : String) (d c : Bool) (m : BlobMetrics) : Nat :=
  if d then 0 else if c then (if isTestPath p then 0 else m.codeLoc) else 0

/-- The amount a surviving entry adds to `totalTests`. -/
def contribTests (p : String) (d c : Bool) (m : BlobMetrics) : Nat :=
  if d then 0 else if c then (if isTestPath p then m.testCases else 0) else 0

/-- The amount a surviving entry adds to `docLoc`. -/
def contribDoc (d : Bool) (m : BlobMetrics) : Nat :=
  if d then m.docLoc else 0

lemma addContribution_fields (st : MetricsState) (p : String) (d c : Bool)
    (m : BlobMetrics) :
    (addContribution st p d c m).nonTestLoc = st.nonTestLoc + contribNon p d c m ∧
    (addContribution st p d c m).totalTests = st.totalTests + contribTests p d c m ∧
    (addContribution st p d c m).docLoc = st.docLoc + contribDoc d m := by
  cases d with
  | true => simp [addContribution, contribNon, contribTests, contribDoc]
  | false =>
    cases c with
    | true =>
      cases htp : isTestPath p <;>
        simp [addContribution, contribNon, contribTests, contribDoc, htp]
    | false => simp [addContribution, contribNon, contribTests, contribDoc]

lemma zeroRel_addContribution {sha : String} {s1 s2 : MetricsState} (p : String)
    (d c : Bool) (m : BlobMetrics) (h : ZeroRel sha s1 s2) :
    ZeroRel sha (addContribution s1 p d c m) (addContribution s2 p d c m) := by
  obtain ⟨h1, h2, h3, h4, h5, h6⟩ := h
  obtain ⟨f1, f2, f3⟩ := addContribution_fields s1 p d c m
  obtain ⟨g1, g2, g3⟩ := addContribution_fields s2 p d c m
  refine ⟨?_, ?_, ?_, ?_, ?_, ?_⟩
  · rw [f1, g1, h1]
  · rw [f2, g2, h2]
  · rw [f3, g3, h3]
  · intro k hk
    rw [addContribution_cache, addContribution_cache]
    exact h4 k hk
  · rw [addContribution_cache]; exact h5
  · rw [addContribution_cache]; exact h6

lemma catBlob_none (rawOut : Option String) (maxBytes : Nat)
    (h : rawOut = none ∨
      ∃ t, rawOut = some t ∧ (maxBytes < t.utf8ByteSize ∨ seemsBinary t = true)) :
    catBlob rawOut maxBytes = none := by
  rcases h with rfl | ⟨t, rfl, hc⟩
  · rfl
  · unfold catBlob
    by_cases h0 : t = ""
    · simp [h0]
    · rcases hc with hb | hb
      · simp [h0, hb]
      · by_cases hsz : maxBytes < t.utf8ByteSize
        · simp [h0, hsz]
        · simp [h0, hsz, hb]

lemma zeroRel_processEntry (raw : String → Option String) (maxFileBytes : Nat)
    (sha : String) (hnone : catBlob (raw sha) maxFileBytes = none)
    (e : TreeEntry) (s1 s2 : MetricsState) (h : ZeroRel sha s1 s2) :
    ZeroRel sha (processEntry raw maxFileBytes s1 e) (processEntry raw maxFileBytes s2 e) := by
  obtain ⟨h1, h2, h3, h4, h5, h6⟩ := h
  unfold processEntry
  by_cases ht : e.type ≠ "blob"
  · rw [if_pos ht, if_pos ht]; exact ⟨h1, h2, h3, h4, h5, h6⟩
  rw [if_neg ht, if_neg ht]
  by_cases hcls : (!CODE_EXTS.contains (extOf e.path) &&
      !DOC_EXTS.contains (extOf e.path)) = true
  · rw [if_pos hcls, if_pos hcls]; exact ⟨h1, h2, h3, h4, h5, h6⟩
  rw [if_neg hcls, if_neg hcls]
  by_cases hskp : (!DOC_EXTS.contains (extOf e.path) && pathShouldSkip e.path) = true
  · rw [if_pos hskp, if_pos hskp]; exact ⟨h1, h2, h3, h4, h5, h6⟩
  rw [if_neg hskp, if_neg hskp]
  by_cases hsz : sizeTooBig e maxFileBytes = true
  · rw [if_pos hsz, if_pos hsz]; exact ⟨h1, h2, h3, h4, h5, h6⟩
  rw [if_neg hsz, if_neg hsz]
  by_cases hse : e.sha = sha
  · subst hse
    have hm1 : cachedOrComputed raw maxFileBytes s1.cache e = ⟨0, 0, 0⟩ := by
      unfold cachedOrComputed
      rcases h5 with hcc | hcc <;> rw [hcc]
      · rw [hnone]; rfl
    have hm2 : cachedOrComputed raw maxFileBytes s2.cache e = ⟨0, 0, 0⟩ := by
      unfold cachedOrComputed
      rcases h6 with hcc | hcc <;> rw [hcc]
      · rw [hnone]; rfl
    rw [hm1, hm2]
    apply zeroRel_addContribution
    rcases h5 with hcc1 | hcc1 <;> rcases h6 with hcc2 | hcc2
    · rw [hcc1, hcc2]
      refine ⟨h1, h2, h3, ?_, ?_, ?_⟩
      · intro k hk
        simp only [hk, if_false]
        exact h4 k hk
      · right; simp
      · right; simp
    · rw [hcc1, hcc2]
      refine ⟨h1, h2, h3, ?_, ?_, ?_⟩
      · intro k hk
        simp only [hk, if_false]
        exact h4 k hk
      · right; simp
      · right; exact hcc2
    · rw [hcc1, hcc2]
      refine ⟨h1, h2, h3, ?_, ?_, ?_⟩
      · intro k hk
        simp only [hk, if_false]
        exact h4 k hk
      · right; exact hcc1
      · right; simp
    · rw [hcc1, hcc2]
      exact ⟨h1, h2, h3, h4, Or.inr hcc1, Or.inr hcc2⟩
  · have hcc12 : s1.cache e.sha = s2.cache e.sha := h4 e.sha hse
    have hm12 : cachedOrComputed raw maxFileBytes s1.cache e =
        cachedOrComputed raw maxFileBytes s2.cache e := by
      unfold cachedOrComputed
      rw [hcc12]
    rw [hm12]
    cases hcc : s2.cache e.sha with
    | some m =>
      rw [hcc12, hcc]
      exact zeroRel_addContribution _ _ _ _ ⟨h1, h2, h3, h4, h5, h6⟩
    | none =>
      rw [hcc12, hcc]
      refine zeroRel_addContribution _ _ _ _ ⟨h1, h2, h3, ?_, ?_, ?_⟩
      · intro k hk
        by_cases hke : k = e.sha
        · subst hke
          simp
        · simp only [hke, if_false]
          exact h4 k hk
      · simpa [Ne.symm hse] using h5
      · simpa [Ne.symm hse] using h6

lemma zeroRel_runEntries (raw : String → Option String) (maxFileBytes : Nat)
    (sha : String) (hnone : catBlob (raw sha) maxFileBytes = none)
    (l : List TreeEntry) :
    ∀ s1 s2 : MetricsState, ZeroRel sha s1 s2 →
      ZeroRel sha (runEntries raw maxFileBytes l s1) (runEntries raw maxFileBytes l s2) := by
  induction l with
  | nil => intro s1 s2 h; exact h
  | cons e es ih =>
    intro s1 s2 h
    exact ih _ _ (zeroRel_processEntry raw maxFileBytes sha hnone e s1 s2 h)

lemma zeroRel_processEntry_self (raw : String → Option String) (maxFileBytes : Nat)
    (e : TreeEntry) (st : MetricsState)
    (hnone : catBlob (raw e.sha) maxFileBytes = none)
    (hc : st.cache e.sha = none ∨ st.cache e.sha = some ⟨0, 0, 0⟩) :
    ZeroRel e.sha (processEntry raw maxFileBytes st e) st := by
  have hrefl : ZeroRel e.sha st st := ⟨rfl, rfl, rfl, fun k _ => rfl, hc, hc⟩
  unfold processEntry
  by_cases ht : e.type ≠ "blob"
  · rw [if_pos ht]; exact hrefl
  rw [if_neg ht]
  by_cases hcls : (!CODE_EXTS.contains (extOf e.path) &&
      !DOC_EXTS.contains (extOf e.path)) = true
  · rw [if_pos hcls]; exact hrefl
  rw [if_neg hcls]
  by_cases hskp : (!DOC_EXTS.contains (extOf e.path) && pathShouldSkip e.path) = true
  · rw [if_pos hskp]; exact hrefl
  rw [if_neg hskp]
  by_cases hsz : sizeTooBig e maxFileBytes = true
  · rw [if_pos hsz]; exact hrefl
  rw [if_neg hsz]
  have hm : cachedOrComputed raw maxFileBytes st.cache e = ⟨0, 0, 0⟩ := by
    unfold cachedOrComputed
    rcases hc with hcc | hcc <;> rw [hcc]
    · rw [hnone]; rfl
  rw [hm]
  obtain ⟨f1, f2, f3⟩ := addContribution_fields
    (match st.cache e.sha with
     | some _ => st
     | none =>
       { st with
         cache := fun k => if k = e.sha then some ⟨0, 0, 0⟩ else st.cache k,
         computed := st.computed ++ [e.sha] })
    e.path (DOC_EXTS.contains (extOf e.path)) (CODE_EXTS.contains (extOf e.path)) ⟨0, 0, 0⟩
  cases hcc : st.cache e.sha with
  | some m =>
    simp only [hcc] at f1 f2 f3 ⊢
    refine ⟨?_, ?_, ?_, fun k _ => by rw [addContribution_cache], ?_, hc⟩
    · rw [f1]; simp [contribNon]
    · rw [f2]; simp [contribTests]
    · rw [f3]; simp [contribDoc]
    · rw [addContribution_cache]
      rcases hc with hcc2 | hcc2
      · rw [hcc] at hcc2; cases hcc2
      · right; rw [hcc] at hcc2; rw [hcc, hcc2]
  | none =>
    simp only [hcc] at f1 f2 f3 ⊢
    refine ⟨?_, ?_, ?_, ?_, ?_, hc⟩
    · rw [f1]; simp [contribNon]
    · rw [f2]; simp [contribTests]
    · rw [f3]; simp [contribDoc]
    · intro k hk
      rw [addContribution_cache]
      simp [hk]
    · rw [addContribution_cache]
      simp

end Lemmas

/-- C8: an entry whose blob read fails or comes back absent (a failed
`cat-file`, an oversized blob, or binary content) contributes zero to all
three totals — the commit's totals equal the totals computed without that
entry, the other entries' contributions intact. -/
theorem c8_bad_blob_zero_contribution :
    ∀ (raw : String → Option String) (maxFileBytes : Nat)
      (l1 l2 : List TreeEntry) (e : TreeEntry) (c0 : Cache),
      (raw e.sha = none ∨
        ∃ t, raw e.sha = some t ∧
          (maxFileBytes < t.utf8ByteSize ∨ seemsBinary t = true)) →
      ((runEntries raw maxFileBytes l1 ⟨0, 0, 0, c0, []⟩).cache e.sha = none ∨
       (runEntries raw maxFileBytes l1 ⟨0, 0, 0, c0, []⟩).cache e.sha = some ⟨0, 0, 0⟩) →
      totalsOf (computeMetricsForCommit raw maxFileBytes (l1 ++ e :: l2) c0) =
        totalsOf (computeMetricsForCommit raw maxFileBytes (l1 ++ l2) c0) := by
  intro raw maxFileBytes l1 l2 e c0 hraw hc
  have hnone : catBlob (raw e.sha) maxFileBytes = none :=
    catBlob_none _ _ hraw
  unfold computeMetricsForCommit runEntries at *
  rw [List.foldl_append, List.foldl_append, List.foldl_cons]
  have hrel := zeroRel_runEntries raw maxFileBytes e.sha hnone l2 _ _
    (zeroRel_processEntry_self raw maxFileBytes e
      (List.foldl (processEntry raw maxFileBytes) ⟨0, 0, 0, c0, []⟩ l1) hnone hc)
  obtain ⟨h1, h2, h3, _, _, _⟩ := hrel
  unfold runEntries at h1 h2 h3
  unfold totalsOf
  rw [h1, h2, h3]

/-- C8 witness: with a failing blob read for `a.py`, the commit totals with
and without that entry coincide. -/
theorem c8_bad_blob_zero_contribution_witness :
    totalsOf (computeMetricsForCommit
      (fun s => if s = "s2" then some "hi" else none) 100
      ([] ++ ⟨"blob", "a.py", "s1", none⟩ :: [⟨"blob", "b.md", "s2", none⟩])
      (fun _ => none)) =
    totalsOf (computeMetricsForCommit
      (fun s => if s = "s2" then some "hi" else none) 100
      ([] ++ [⟨"blob", "b.md", "s2", none⟩]) (fun _ => none)) :=
  c8_bad_blob_zero_contribution _ 100 [] [⟨"blob", "b.md", "s2", none⟩]
    ⟨"blob", "a.py", "s1", none⟩ (fun _ => none) (Or.inl rfl) (Or.inl rfl)

/-- C3 witness: lengths `[10, 20, 30]` with window `N = 2` give `25` at the
third row, matching the mean of the last two lengths. -/
theorem c3_rolling_average_witness :
    (avgList 2 ⟨[], 0⟩ [10, 20, 30]).getD 2 0 = 25 ∧
    avgList 2 ⟨[], 0⟩ [10, 20, 30] = [10, 15, 25] :=
  ⟨by
    rw [c3_rolling_average 2 [10, 20, 30] 2 (by decide) (by decide)]
    norm_num, by
    simp [avgList, avgStep, avgOf]
    norm_num⟩

section Lemmas

lemma list_isEmpty_false {α} (l : List α) (h : l ≠ []) : l.isEmpty = false := by
  cases l with
  | nil => exact absurd rfl h
  | cons a t => rfl

lemma list_isEmpty_true {α} (l : List α) (h : l.isEmpty = true) : l = [] := by
  cases l with
  | nil => rfl
  | cons a t => cases h

lemma any_eq_false_of {α} (p : α → Bool) (l : List α)
    (h : ∀ a ∈ l, p a = false) : l.any p = false := by
  induction l with
  | nil => rfl
  | cons a t ih =>
    simp only [List.any_cons, h a (List.mem_cons_self _ _), Bool.false_or]
    exact ih (fun x hx => h x (List.mem_cons_of_mem _ hx))

/-- `parseUrl` on an input with a syntactically valid scheme prefix. -/
lemma parseUrl_shape (S Z : List Char) (hS1 : S ≠ [])
    (hS2 : ∀ c ∈ S, isAsciiAlpha c = true) :
    parseUrl (S ++ ([':', '/', '/'] ++ Z)) =
      mkUrlParts S (Z.takeWhile (fun c => c ≠ '/')) (Z.dropWhile (fun c => c ≠ '/')) := by
  have hxs : ∀ a ∈ S, (fun c => decide (c ≠ ':')) a = true := by
    intro a ha
    refine decide_eq_true ?_
    intro heq
    have h2 := hS2 a ha
    rw [heq] at h2
    exact absurd h2 (by decide)
  have hys : ∀ b, ([':', '/', '/'] ++ Z).head? = some b →
      (fun c => decide (c ≠ ':')) b = false := by
    intro b hb
    simp only [List.cons_append, List.head?_cons, Option.some_inj] at hb
    subst hb
    decide
  unfold parseUrl
  rw [takeWhile_append_stop _ S _ hxs hys, dropWhile_append_stop _ S _ hxs hys]
  rw [if_pos (by simp [List.isPrefixOf] : ([':', '/', '/'].isPrefixOf
    ([':', '/', '/'] ++ Z)) = true)]
  rw [if_neg (by
    rw [list_isEmpty_false S hS1, List.all_eq_true.mpr hS2]
    simp)]
  rw [show ([':', '/', '/'] ++ Z).drop 3 = Z from rfl]

lemma authHost_no_at (A : List Char) (h : hasAt A = false) : authHost A = A := by
  unfold authHost
  rw [h]
  simp

lemma authUserinfo_no_at (A : List Char) (h : hasAt A = false) :
    authUserinfo A = [] := by
  unfold authUserinfo
  rw [h]
  simp

lemma authHost_with_ui (W H : List Char) (hH : ∀ c ∈ H, c ≠ '@') :
    authHost ((W ++ ['@']) ++ H) = H := by
  have hAt : hasAt ((W ++ ['@']) ++ H) = true := by
    unfold hasAt
    rw [List.any_eq_true]
    exact ⟨'@', by simp, by decide⟩
  unfold authHost
  rw [hAt]
  simp only [if_true]
  rw [List.reverse_append, List.reverse_append]
  simp only [List.reverse_cons, List.reverse_nil, List.nil_append, List.singleton_append]
  rw [takeWhile_append_stop _ H.reverse ('@' :: W.reverse)
    (fun a ha => decide_eq_true (hH a (List.mem_reverse.mp ha)))
    (fun b hb => by
      simp only [List.head?_cons, Option.some_inj] at hb
      subst hb
      decide)]
  exact List.reverse_reverse H

lemma authUserinfo_with_ui (W H : List Char) (hH : ∀ c ∈ H, c ≠ '@') :
    authUserinfo ((W ++ ['@']) ++ H) = W := by
  have hAt : hasAt ((W ++ ['@']) ++ H) = true := by
    unfold hasAt
    rw [List.any_eq_true]
    exact ⟨'@', by simp, by decide⟩
  unfold authUserinfo
  rw [hAt]
  simp only [if_true]
  rw [List.reverse_append, List.reverse_append]
  simp only [List.reverse_cons, List.reverse_nil, List.nil_append, List.singleton_append]
  rw [dropWhile_append_stop _ H.reverse ('@' :: W.reverse)
    (fun a ha => decide_eq_true (hH a (List.mem_reverse.mp ha)))
    (fun b hb => by
      simp only [List.head?_cons, Option.some_inj] at hb
      subst hb
      decide)]
  simp

/-- `parseUrl` inverts `renderUrl` on the well-formed portless URL shape:
the parsed parts are the rendered components, the scheme and host
lowercased and an empty path becoming `"/"`. -/
lemma parseUrl_render (scheme user pass host pth : String)
    (hs1 : scheme.data ≠ []) (hs2 : ∀ c ∈ scheme.data, isAsciiAlpha c = true)
    (hh1 : host.data ≠ []) (hh2 : ∀ c ∈ host.data, c ≠ '@' ∧ c ≠ '/' ∧ c ≠ ':')
    (hu : ∀ c ∈ user.data, c ≠ '@' ∧ c ≠ '/' ∧ c ≠ ':')
    (hp : ∀ c ∈ pass.data, c ≠ '@' ∧ c ≠ '/')
    (hq : pth.data = [] ∨ pth.data.head? = some '/') :
    parseUrl (renderUrl scheme user pass host pth).data =
      some ⟨lowerL scheme.data ++ [':'], user.data, pass.data, lowerL host.data,
            if pth.data.isEmpty then ['/'] else pth.data⟩ := by
  have hdata : (renderUrl scheme user pass host pth).data =
      scheme.data ++ ([':', '/', '/'] ++ (uiOf user pass ++ (host.data ++ pth.data))) := by
    show scheme.data ++ [':', '/', '/'] ++ uiOf user pass ++ host.data ++ pth.data = _
    simp [List.append_assoc]
  rw [hdata, parseUrl_shape _ _ hs1 hs2]
  have hstopQ : ∀ b, pth.data.head? = some b →
      (fun c => decide (c ≠ '/')) b = false := by
    intro b hb
    rcases hq with hq | hq
    · rw [hq] at hb; cases hb
    · rw [hq, Option.some_inj] at hb
      subst hb
      decide
  have hAllUIH : ∀ a ∈ uiOf user pass ++ host.data,
      (fun c => decide (c ≠ '/')) a = true := by
    intro a ha
    refine decide_eq_true ?_
    rcases List.mem_append.mp ha with ha | ha
    · unfold uiOf at ha
      by_cases h0 : (user.data.isEmpty && pass.data.isEmpty) = true
      · rw [if_pos h0] at ha
        exact absurd ha (List.not_mem_nil a)
      · rw [if_neg h0] at ha
        rcases List.mem_append.mp ha with ha | ha
        · rcases List.mem_append.mp ha with ha | ha
          · exact (hu a ha).2.1
          · by_cases hp0 : pass.data.isEmpty = true
            · rw [if_pos hp0] at ha
              exact absurd ha (List.not_mem_nil a)
            · rw [if_neg hp0] at ha
              rcases List.mem_cons.mp ha with rfl | ha
              · decide
              · exact (hp a ha).2
        · rw [List.mem_singleton.mp ha]
          decide
    · exact (hh2 a ha).2.1
  rw [show uiOf user pass ++ (host.data ++ pth.data) =
      (uiOf user pass ++ host.data) ++ pth.data from (List.append_assoc _ _ _).symm]
  rw [takeWhile_append_stop _ _ _ hAllUIH hstopQ,
    dropWhile_append_stop _ _ _ hAllUIH hstopQ]
  have hH_at : ∀ c ∈ host.data, c ≠ '@' := fun c hc => (hh2 c hc).1
  have hAtH : hasAt host.data = false :=
    any_eq_false_of _ _ (fun a ha => decide_eq_false (fun heq => (hh2 a ha).1 heq))
  have hColonH : hasColon host.data = false :=
    any_eq_false_of _ _ (fun a ha => decide_eq_false (fun heq => (hh2 a ha).2.2 heq))
  by_cases h0 : (user.data.isEmpty && pass.data.isEmpty) = true
  · obtain ⟨hU, hP⟩ := Bool.and_eq_true_iff.mp h0
    have hU' : user.data = [] := list_isEmpty_true _ hU
    have hP' : pass.data = [] := list_isEmpty_true _ hP
    rw [show uiOf user pass = [] from by unfold uiOf; rw [if_pos h0]]
    rw [List.nil_append]
    unfold mkUrlParts
    rw [authHost_no_at _ hAtH, authUserinfo_no_at _ hAtH]
    rw [if_neg (by
      rw [list_isEmpty_false _ hh1, hColonH, hAtH]
      simp)]
    rw [hU', hP']
    rfl
  · rw [show uiOf user pass =
        ((user.data ++ (if pass.data.isEmpty then [] else ':' :: pass.data)) ++ ['@'])
      from by unfold uiOf; rw [if_neg h0]]
    unfold mkUrlParts
    rw [authHost_with_ui _ _ hH_at, authUserinfo_with_ui _ _ hH_at]
    have hUc : ∀ a ∈ user.data, (fun c => decide (c ≠ ':')) a = true :=
      fun a ha => decide_eq_true (hu a ha).2.2
    have hPcStop : ∀ b, (if pass.data.isEmpty then ([] : List Char)
        else ':' :: pass.data).head? = some b → (fun c => decide (c ≠ ':')) b = false := by
      intro b hb
      by_cases hp0 : pass.data.isEmpty = true
      · rw [if_pos hp0] at hb
        cases hb
      · rw [if_neg hp0] at hb
        simp only [List.head?_cons, Option.some_inj] at hb
        subst hb
        decide
    rw [takeWhile_append_stop _ _ _ hUc hPcStop,
      dropWhile_append_stop _ _ _ hUc hPcStop]
    rw [if_neg (by
      rw [list_isEmpty_false _ hh1, hColonH, hAtH]
      simp)]
    by_cases hp0 : pass.data.isEmpty = true
    · rw [if_pos hp0, list_isEmpty_true _ hp0]
      rfl
    · rw [if_neg hp0]
      rfl

lemma maskUsername_protocol (u : UrlParts) : (maskUsername u).protocol = u.protocol := by
  unfold maskUsername
  split <;> rfl

lemma maskUsername_host (u : UrlParts) : (maskUsername u).host = u.host := by
  unfold maskUsername
  split <;> rfl

lemma maskUsername_pathname (u : UrlParts) : (maskUsername u).pathname = u.pathname := by
  unfold maskUsername
  split <;> rfl

lemma clearPassword_protocol (u : UrlParts) : (clearPassword u).protocol = u.protocol := by
  unfold clearPassword
  split <;> rfl

lemma clearPassword_host (u : UrlParts) : (clearPassword u).host = u.host := by
  unfold clearPassword
  split <;> rfl

lemma clearPassword_pathname (u : UrlParts) : (clearPassword u).pathname = u.pathname := by
  unfold clearPassword
  split <;> rfl

/-- What `sanitizeRepoForDisplay` produces on a rendered well-formed URL:
scheme and host (lowercased) and the path — no userinfo component at all. -/
lemma sanitize_render (cwd scheme user pass host pth : String)
    (hs1 : scheme.data ≠ []) (hs2 : ∀ c ∈ scheme.data, isAsciiAlpha c = true)
    (hh1 : host.data ≠ []) (hh2 : ∀ c ∈ host.data, c ≠ '@' ∧ c ≠ '/' ∧ c ≠ ':')
    (hu : ∀ c ∈ user.data, c ≠ '@' ∧ c ≠ '/' ∧ c ≠ ':')
    (hp : ∀ c ∈ pass.data, c ≠ '@' ∧ c ≠ '/')
    (hq : pth.data = [] ∨ pth.data.head? = some '/') :
    sanitizeRepoForDisplay cwd (renderUrl scheme user pass host pth) =
      String.mk ((lowerL scheme.data ++ [':']) ++ ['/', '/'] ++ lowerL host.data ++
        (if pth.data.isEmpty then ['/'] else pth.data)) := by
  have hparse := parseUrl_render scheme user pass host pth hs1 hs2 hh1 hh2 hu hp hq
  have hdata : (renderUrl scheme user pass host pth).data =
      scheme.data ++ ([':', '/', '/'] ++ (uiOf user pass ++ (host.data ++ pth.data))) := by
    show scheme.data ++ [':', '/', '/'] ++ uiOf user pass ++ host.data ++ pth.data = _
    simp [List.append_assoc]
  have hpre : hasUrlScheme (renderUrl scheme user pass host pth).data = true := by
    unfold hasUrlScheme
    rw [hdata]
    rw [takeWhile_append_stop isAsciiAlpha scheme.data _ hs2
      (fun b hb => by
        simp only [List.cons_append, List.head?_cons, Option.some_inj] at hb
        subst hb
        decide)]
    rw [dropWhile_append_stop isAsciiAlpha scheme.data _ hs2
      (fun b hb => by
        simp only [List.cons_append, List.head?_cons, Option.some_inj] at hb
        subst hb
        decide)]
    rw [list_isEmpty_false _ hs1]
    simp [List.isPrefixOf]
  unfold sanitizeRepoForDisplay
  rw [if_pos (by rw [hpre]; simp)]
  rw [hparse]
  simp only [clearPassword_protocol, clearPassword_host, clearPassword_pathname,
    maskUsername_protocol, maskUsername_host, maskUsername_pathname]

end Lemmas

/-- C10: for well-formed repository URLs, the displayed name is independent
of the userinfo component — two URLs differing only in username/password
sanitize to the same string, and that string is built from the scheme,
host and path alone, so an embedded password cannot flow into it. -/
theorem c10_sanitize_strips_credentials :
    ∀ (cwd scheme user1 pass1 user2 pass2 host pth : String),
      scheme.data ≠ [] →
      (∀ c ∈ scheme.data, isAsciiAlpha c = true) →
      host.data ≠ [] →
      (∀ c ∈ host.data, c ≠ '@' ∧ c ≠ '/' ∧ c ≠ ':') →
      (∀ c ∈ user1.data ++ user2.data, c ≠ '@' ∧ c ≠ '/' ∧ c ≠ ':') →
      (∀ c ∈ pass1.data ++ pass2.data, c ≠ '@' ∧ c ≠ '/') →
      (pth.data = [] ∨ pth.data.head? = some '/') →
      sanitizeRepoForDisplay cwd (renderUrl scheme user1 pass1 host pth) =
        sanitizeRepoForDisplay cwd (renderUrl scheme user2 pass2 host pth) ∧
      sanitizeRepoForDisplay cwd (renderUrl scheme user1 pass1 host pth) =
        String.mk ((lowerL scheme.data ++ [':']) ++ ['/', '/'] ++ lowerL host.data ++
          (if pth.data.isEmpty then ['/'] else pth.data)) := by
  intro cwd scheme user1 pass1 user2 pass2 host pth hs1 hs2 hh1 hh2 hu hp hq
  have h1 := sanitize_render cwd scheme user1 pass1 host pth hs1 hs2 hh1 hh2
    (fun c hc => hu c (List.mem_append.mpr (Or.inl hc)))
    (fun c hc => hp c (List.mem_append.mpr (Or.inl hc))) hq
  have h2 := sanitize_render cwd scheme user2 pass2 host pth hs1 hs2 hh1 hh2
    (fun c hc => hu c (List.mem_append.mpr (Or.inr hc)))
    (fun c hc => hp c (List.mem_append.mpr (Or.inr hc))) hq
  exact ⟨h1.trans h2.symm, h1⟩

/-- C10 witness: a URL with embedded credentials and its credential-free
twin display identically, with the password gone. -/
theorem c10_sanitize_strips_credentials_witness :
    sanitizeRepoForDisplay "/w" (renderUrl "https" "alice" "s3cret" "github.com" "/org/repo.git") =
      sanitizeRepoForDisplay "/w" (renderUrl "https" "" "" "github.com" "/org/repo.git") ∧
    sanitizeRepoForDisplay "/w" (renderUrl "https" "alice" "s3cret" "github.com" "/org/repo.git") =
      String.mk ((lowerL "https".data ++ [':']) ++ ['/', '/'] ++ lowerL "github.com".data ++
        (if "/org/repo.git".data.isEmpty then ['/'] else "/org/repo.git".data)) :=
  c10_sanitize_strips_credentials "/w" "https" "alice" "s3cret" "" "" "github.com"
    "/org/repo.git" (by decide) (by decide) (by decide) (by decide) (by decide)
    (by decide) (by decide)

end RepoMetrics
